import Mathlib

/-!
Shallow embedding of the vNFT contract
(`src/vNFTContract/app/src/services/service.rs`).

Principals (`ActorId`) are modelled as `Nat`; `u64` / `u32` values are
modelled as `Nat`, with saturating arithmetic made explicit where the
source uses it and the `u64` overflow bound made explicit where the
source uses `checked_add`.  The two in-memory `HashMap`s are modelled as
functions into `Option`.  Every service entry point is a function from
the pre-state to a pair of a result (`Except VnftError _`, the `error`
case standing for a Rust panic, which aborts the invocation) and the
state at the exit point; the two metadata entry points additionally
return the list of delayed messages handed to the host
(`msg::send_bytes_with_gas_delayed`).
-/

/-- `2 ^ 64`, the modulus of the `u64` type. -/
def U64MOD : Nat := 18446744073709551616

/-- `u64::MAX`. -/
def U64MAX : Nat := 18446744073709551615

/-- `u64::saturating_add`. -/
def satAdd (x y : Nat) : Nat := min (x + y) U64MAX

/-- `u64::saturating_mul`. -/
def satMul (x y : Nat) : Nat := min (x * y) U64MAX

/-- `TokenMetadata` from the source (media entries kept as strings). -/
structure TokenMetadata where
  name : String
  description : String
  current_media_index : Nat
  media : List String
  reference : String
deriving DecidableEq

/-- `NFT` from the source; `owner : ActorId` modelled as `Nat`. -/
structure NFT where
  id : Nat
  owner : Nat
  metadata : TokenMetadata
deriving DecidableEq

/-- `VnftState` from the source; the two `HashMap`s become functions into
`Option`, an absent key being `none`. -/
structure VnftState where
  admin : Nat
  nfts : Nat → Option NFT
  owner_nfts : Nat → Option (List Nat)
  next_id : Nat
  main_contract : Option Nat
  gas_for_one_time_updating : Nat

/-- Point update of a map, `HashMap::insert`. -/
def mapSet {α : Type} (m : Nat → Option α) (k : Nat) (v : α) : Nat → Option α :=
  fun j => if j = k then some v else m j

/-- Point removal from a map, `HashMap::remove`. -/
def mapErase {α : Type} (m : Nat → Option α) (k : Nat) : Nat → Option α :=
  fun j => if j = k then none else m j

/-- `VnftEvent` from the source. -/
inductive VnftEvent where
  | Minted (id owner : Nat)
  | Burned (id owner : Nat)
  | Transferred (id fromOwner toA : Nat)
  | MainContractSet (addr : Nat)
  | MetadataStartedUpdating (updates_count update_period_in_blocks token_id : Nat)
  | MetadataUpdated (token_id current_media_index : Nat)
deriving DecidableEq

/-- `VnftError` from the source; a Rust panic in an entry point is mapped
to the error of the taxonomy that names that failure. -/
inductive VnftError where
  | Unauthorized
  | NotFound
  | NotOwner
  | AlreadyExists
  | InvalidMainContract
  | Overflow
  | TokenDoesNotExist
  | DeniedAccess
  | InvalidUpdateCount
  | InvalidUpdatePeriod
  | NotificationError
  | OnlyProgramCanUpdate
deriving DecidableEq

/-- A delayed message handed to `msg::send_bytes_with_gas_delayed`:
destination, the payload fields `(token_id, owner, update_period,
updates_count)` of the `UpdateMetadata` request, the gas budget, the
attached value (always `0` in the source) and the block delay. -/
structure ScheduledMsg where
  dest : Nat
  token_id : Nat
  owner : Nat
  update_period : Nat
  updates_count : Nat
  gas : Nat
  value : Nat
  delay : Nat
deriving DecidableEq

deriving instance DecidableEq for Except

/-- `VnftState::init`, as called from `Service::seed`. -/
def initState (admin : Nat) (main_contract : Option Nat) (gas : Nat) : VnftState :=
  { admin := admin
    nfts := fun _ => none
    owner_nfts := fun _ => none
    next_id := 1
    main_contract := main_contract
    gas_for_one_time_updating := gas }

/-- `Service::mint`.  `caller` is `msg::source()`.  The authorization
check mirrors `!is_admin && !is_main`; `checked_add` fails with
`Overflow` exactly when `next_id + 1` would leave the `u64` range. -/
def mint (caller toA : Nat) (metadata : TokenMetadata) (s : VnftState) :
    Except VnftError VnftEvent × VnftState :=
  if ¬ (caller = s.admin) ∧ ¬ (s.main_contract = some caller) then
    (.error .Unauthorized, s)
  else if U64MOD ≤ s.next_id + 1 then
    (.error .Overflow, s)
  else
    let new_id := s.next_id
    let nft : NFT := { id := new_id, owner := toA, metadata := metadata }
    let owned := (s.owner_nfts toA).getD []
    (.ok (.Minted new_id toA),
      { s with
          next_id := s.next_id + 1
          nfts := mapSet s.nfts new_id nft
          owner_nfts := mapSet s.owner_nfts toA (owned ++ [new_id]) })

/-- `Service::burn`.  `caller` is `msg::source()`. -/
def burn (caller id : Nat) (s : VnftState) :
    Except VnftError VnftEvent × VnftState :=
  match s.nfts id with
  | none => (.error .NotFound, s)
  | some nft =>
    if nft.owner ≠ caller then
      (.error .NotOwner, s)
    else
      let owner1 :=
        match s.owner_nfts caller with
        | some owned => mapSet s.owner_nfts caller (owned.filter (fun x => x ≠ id))
        | none => s.owner_nfts
      (.ok (.Burned id caller),
        { s with nfts := mapErase s.nfts id, owner_nfts := owner1 })

/-- `Service::transfer`.  `caller` is `msg::source()`.  As in the source,
the old owner's list is filtered first and the id is then pushed onto the
new owner's list of the already-filtered map. -/
def transfer (caller id toA : Nat) (s : VnftState) :
    Except VnftError VnftEvent × VnftState :=
  match s.nfts id with
  | none => (.error .NotFound, s)
  | some nft =>
    if nft.owner ≠ caller then
      (.error .NotOwner, s)
    else
      let nfts1 := mapSet s.nfts id { nft with owner := toA }
      let ow1 :=
        match s.owner_nfts nft.owner with
        | some owned => mapSet s.owner_nfts nft.owner (owned.filter (fun x => x ≠ id))
        | none => s.owner_nfts
      let ow2 := mapSet ow1 toA ((ow1 toA).getD [] ++ [id])
      (.ok (.Transferred id nft.owner toA),
        { s with nfts := nfts1, owner_nfts := ow2 })

/-- `Service::set_main_contract`. -/
def set_main_contract (caller mc : Nat) (s : VnftState) :
    Except VnftError VnftEvent × VnftState :=
  if caller ≠ s.admin then
    (.error .Unauthorized, s)
  else
    (.ok (.MainContractSet mc), { s with main_contract := some mc })

/-- Free function `start_metadata_updates`.  `progId` is
`exec::program_id()`.  The advance is `saturating_add(1) % media_len`;
when `updates_count - 1 ≠ 0` (saturating subtraction) one delayed
self-addressed message is sent with gas
`gas_for_one_time_updating.saturating_mul(updates_count)` and delay
`update_period`. -/
def start_metadata_updates (progId gas1 : Nat) (token_id msg_src : Nat)
    (updates_count update_period : Nat) (s : VnftState) :
    Except VnftError Unit × VnftState × List ScheduledMsg :=
  match s.nfts token_id with
  | none => (.error .TokenDoesNotExist, s, [])
  | some nft =>
    if nft.owner ≠ msg_src then
      (.error .DeniedAccess, s, [])
    else
      if nft.metadata.media.length = 0 then
        (.error .TokenDoesNotExist, s, [])
      else
        let newIdx := satAdd nft.metadata.current_media_index 1 % nft.metadata.media.length
        let nfts1 := mapSet s.nfts token_id
          { nft with metadata := { nft.metadata with current_media_index := newIdx } }
        let msgs :=
          if updates_count - 1 ≠ 0 then
            [{ dest := progId, token_id := token_id, owner := msg_src,
               update_period := update_period, updates_count := updates_count - 1,
               gas := satMul gas1 updates_count, value := 0, delay := update_period }]
          else []
        (.ok (), { s with nfts := nfts1 }, msgs)

/-- Free function `updates_metadata`.  `gasAvailable` is
`exec::gas_available()`; the continuation is funded with
`gas_available().saturating_sub(1_000_000_000)` (saturating subtraction
is `Nat` subtraction). -/
def updates_metadata (progId gasAvailable : Nat) (token_id owner : Nat)
    (update_period updates_count : Nat) (s : VnftState) :
    Except VnftError Nat × VnftState × List ScheduledMsg :=
  match s.nfts token_id with
  | none => (.error .TokenDoesNotExist, s, [])
  | some nft =>
    if nft.owner ≠ owner then
      (.error .DeniedAccess, s, [])
    else
      if nft.metadata.media.length = 0 then
        (.error .TokenDoesNotExist, s, [])
      else
        let newIdx := satAdd nft.metadata.current_media_index 1 % nft.metadata.media.length
        let nfts1 := mapSet s.nfts token_id
          { nft with metadata := { nft.metadata with current_media_index := newIdx } }
        let msgs :=
          if updates_count - 1 ≠ 0 then
            [{ dest := progId, token_id := token_id, owner := owner,
               update_period := update_period, updates_count := updates_count - 1,
               gas := gasAvailable - 1000000000, value := 0, delay := update_period }]
          else []
        (.ok newIdx, { s with nfts := nfts1 }, msgs)

/-- `Service::start_metadata_update`.  `caller` is `msg::source()`; the
two zero checks precede everything else, then the call is delegated to
`start_metadata_updates` with the state's gas constant. -/
def start_metadata_update (caller progId : Nat)
    (updates_count update_period_in_blocks token_id : Nat) (s : VnftState) :
    Except VnftError VnftEvent × VnftState × List ScheduledMsg :=
  if updates_count = 0 then
    (.error .InvalidUpdateCount, s, [])
  else if update_period_in_blocks = 0 then
    (.error .InvalidUpdatePeriod, s, [])
  else
    match start_metadata_updates progId s.gas_for_one_time_updating token_id caller
        updates_count update_period_in_blocks s with
    | (.error e, s1, msgs) => (.error e, s1, msgs)
    | (.ok _, s1, msgs) =>
      (.ok (.MetadataStartedUpdating updates_count update_period_in_blocks token_id),
        s1, msgs)

/-- `Service::update_metadata`.  `caller` is `msg::source()`, `progId` is
`exec::program_id()`; a caller other than the program itself fails before
anything else. -/
def update_metadata (caller progId gasAvailable : Nat) (token_id owner : Nat)
    (update_period updates_count : Nat) (s : VnftState) :
    Except VnftError VnftEvent × VnftState × List ScheduledMsg :=
  if caller ≠ progId then
    (.error .OnlyProgramCanUpdate, s, [])
  else
    match updates_metadata progId gasAvailable token_id owner update_period
        updates_count s with
    | (.error e, s1, msgs) => (.error e, s1, msgs)
    | (.ok idx, s1, msgs) => (.ok (.MetadataUpdated token_id idx), s1, msgs)

/-- One invocation of a state-changing entry point, with the host-supplied
identities (`msg::source()`, `exec::program_id()`, `exec::gas_available()`)
as data. -/
inductive Op where
  | mintOp (caller toA : Nat) (metadata : TokenMetadata)
  | burnOp (caller id : Nat)
  | transferOp (caller id toA : Nat)
  | setMainOp (caller mc : Nat)
  | startUpdOp (caller progId n p tid : Nat)
  | updMetaOp (caller progId gasAvail tid owner p n : Nat)

/-- The state after one invocation; a failed invocation leaves the state
at its value at the abort point (no mutation precedes any abort in the
source). -/
def applyOp (op : Op) (s : VnftState) : VnftState :=
  match op with
  | .mintOp c toA md => (mint c toA md s).2
  | .burnOp c id => (burn c id s).2
  | .transferOp c id toA => (transfer c id toA s).2
  | .setMainOp c mc => (set_main_contract c mc s).2
  | .startUpdOp c pr n p tid => (start_metadata_update c pr n p tid s).2.1
  | .updMetaOp c pr g tid ow p n => (update_metadata c pr g tid ow p n s).2.1

/-- The state after a sequence of invocations. -/
def runOps (ops : List Op) (s : VnftState) : VnftState :=
  ops.foldl (fun s op => applyOp op s) s

/-- The owner-index entry of a principal, the empty list when absent. -/
def ownedList (s : VnftState) (p : Nat) : List Nat := (s.owner_nfts p).getD []

/-- The owner recorded for a token id, if the token exists. -/
def tokenOwner (s : VnftState) (id : Nat) : Option Nat :=
  (s.nfts id).map (fun nft => nft.owner)

/-- The current media index of a token, if the token exists. -/
def tokenIdx (s : VnftState) (id : Nat) : Option Nat :=
  (s.nfts id).map (fun nft => nft.metadata.current_media_index)

/-- Owner-index consistency: an id is in a principal's entry exactly when
the stored token with that id has that owner. -/
def OwnerIndexInv (s : VnftState) : Prop :=
  ∀ p id, id ∈ ownedList s p ↔ ∃ nft, s.nfts id = some nft ∧ nft.owner = p

/-- No owner's entry contains a duplicate id. -/
def NodupInv (s : VnftState) : Prop :=
  ∀ p, (ownedList s p).Nodup

/-- Every stored token id is strictly below `next_id`. -/
def IdBoundInv (s : VnftState) : Prop :=
  ∀ id nft, s.nfts id = some nft → id < s.next_id

/-- The conjunction of the ledger invariants. -/
def LedgerInv (s : VnftState) : Prop :=
  OwnerIndexInv s ∧ NodupInv s ∧ IdBoundInv s

/-- Media-index invariant of the spec: the index is in range whenever the
media list is non-empty. -/
def MediaIndexInv (s : VnftState) : Prop :=
  ∀ id nft, s.nfts id = some nft → nft.metadata.media ≠ [] →
    nft.metadata.current_media_index < nft.metadata.media.length

/-- An invocation whose metadata (if it is a mint) satisfies the
media-index invariant; every other invocation qualifies. -/
def MintWellFormed (op : Op) : Prop :=
  match op with
  | .mintOp _ _ md => md.media ≠ [] → md.current_media_index < md.media.length
  | _ => True

/-- The ids returned by a successful mint invocation (empty otherwise). -/
def mintEventId (op : Op) (s : VnftState) : List Nat :=
  match op with
  | .mintOp c toA md =>
    match (mint c toA md s).1 with
    | .ok (.Minted id _) => [id]
    | _ => []
  | _ => []

/-- All ids returned by mint along a sequence of invocations, in order. -/
def mintedIds : List Op → VnftState → List Nat
  | [], _ => []
  | op :: ops, s => mintEventId op s ++ mintedIds ops (applyOp op s)

/-- Sample metadata with three media entries, index in range. -/
def mdSample : TokenMetadata :=
  { name := "n", description := "d", current_media_index := 0,
    media := ["a", "b", "c"], reference := "r" }

/-- Sample metadata with an empty media list. -/
def mdEmptyMedia : TokenMetadata := { mdSample with media := [] }

/-- Sample metadata whose index is out of range for its media list. -/
def mdBadIdx : TokenMetadata := { mdSample with media := ["a"], current_media_index := 5 }

/-- Sample metadata whose index is `u64::MAX`. -/
def mdMaxIdx : TokenMetadata :=
  { mdSample with media := ["a", "b"], current_media_index := U64MAX }

/-- A reachable state: admin 1 minted token 1 to principal 5 (three media). -/
def sSample : VnftState := runOps [Op.mintOp 1 5 mdSample] (initState 1 none 10)

/-- A reachable state holding a token with an out-of-range media index. -/
def sBadIdx : VnftState := runOps [Op.mintOp 1 1 mdBadIdx] (initState 1 none 0)

/-- A reachable state holding a token whose media index is `u64::MAX`. -/
def sMaxIdx : VnftState := runOps [Op.mintOp 1 1 mdMaxIdx] (initState 1 none 0)

/-- A reachable state holding a token with an empty media list (owner 5). -/
def sEmptyMedia : VnftState := runOps [Op.mintOp 1 5 mdEmptyMedia] (initState 1 none 7)

/-- The media index after one advance: `saturating_add(1) % len(media)`
(shared shape of `start_metadata_updates` and `updates_metadata`). -/
def advancedIdx (nft : NFT) : Nat :=
  satAdd nft.metadata.current_media_index 1 % nft.metadata.media.length

/-- The token as rewritten by one media-index advance: the index becomes
`advancedIdx nft` and nothing else changes. -/
def advanceToken (nft : NFT) : NFT :=
  { nft with metadata := { nft.metadata with current_media_index := advancedIdx nft } }


/-! ## Basic lemmas about the map model -/

theorem mapSet_self {α : Type} (m : Nat → Option α) (k : Nat) (v : α) :
    mapSet m k v k = some v := by
  simp [mapSet]

theorem mapSet_ne {α : Type} (m : Nat → Option α) (k : Nat) (v : α) {j : Nat}
    (h : j ≠ k) : mapSet m k v j = m j := by
  simp [mapSet, h]

theorem mapErase_self {α : Type} (m : Nat → Option α) (k : Nat) :
    mapErase m k k = none := by
  simp [mapErase]

theorem mapErase_ne {α : Type} (m : Nat → Option α) (k : Nat) {j : Nat}
    (h : j ≠ k) : mapErase m k j = m j := by
  simp [mapErase, h]

/-! ## Ledger invariant preservation -/

theorem ledgerInv_initState (a : Nat) (mc : Option Nat) (g : Nat) :
    LedgerInv (initState a mc g) := by
  refine ⟨?_, ?_, ?_⟩
  · intro p id
    simp [ownedList, initState]
  · intro p
    simp [ownedList, initState]
  · intro id nft h
    simp [initState] at h

theorem ownerIndex_mint (nfts : Nat → Option NFT) (ow : Nat → Option (List Nat))
    (nid toA : Nat) (md : TokenMetadata)
    (hIdx : ∀ p id, id ∈ (ow p).getD [] ↔ ∃ nft, nfts id = some nft ∧ nft.owner = p)
    (hfresh : nfts nid = none) :
    ∀ p id,
      id ∈ ((mapSet ow toA ((ow toA).getD [] ++ [nid]) p).getD []) ↔
        ∃ nft, mapSet nfts nid { id := nid, owner := toA, metadata := md } id = some nft ∧
          nft.owner = p := by
  intro p id
  by_cases hp : p = toA
  · subst hp
    rw [mapSet_self]
    simp only [Option.getD_some, List.mem_append, List.mem_singleton]
    by_cases hid : id = nid
    · subst hid
      rw [mapSet_self]
      constructor
      · intro _
        exact ⟨_, rfl, rfl⟩
      · intro _
        exact Or.inr rfl
    · rw [mapSet_ne _ _ _ hid]
      simp only [hid, or_false]
      exact hIdx p id
  · rw [mapSet_ne _ _ _ hp]
    by_cases hid : id = nid
    · subst hid
      rw [mapSet_self]
      constructor
      · intro hmem
        obtain ⟨nft, hn, _⟩ := (hIdx p id).1 hmem
        rw [hfresh] at hn
        exact Option.noConfusion hn
      · rintro ⟨nft, hn, hown⟩
        cases hn
        exact absurd hown.symm hp
    · rw [mapSet_ne _ _ _ hid]
      exact hIdx p id

theorem nodup_mint (ow : Nat → Option (List Nat)) (nid toA : Nat)
    (hNod : ∀ p, ((ow p).getD []).Nodup)
    (hfreshList : ∀ p, nid ∉ (ow p).getD []) :
    ∀ p, ((mapSet ow toA ((ow toA).getD [] ++ [nid]) p).getD []).Nodup := by
  intro p
  by_cases hp : p = toA
  · subst hp
    rw [mapSet_self]
    simp only [Option.getD_some]
    rw [List.nodup_append]
    refine ⟨hNod p, List.nodup_singleton _, ?_⟩
    intro a ha hb
    rw [List.mem_singleton] at hb
    subst hb
    exact hfreshList p ha
  · rw [mapSet_ne _ _ _ hp]
    exact hNod p

theorem bound_mint (nfts : Nat → Option NFT) (nid toA : Nat) (md : TokenMetadata)
    (hBound : ∀ id nft, nfts id = some nft → id < nid) :
    ∀ id nft, mapSet nfts nid { id := nid, owner := toA, metadata := md } id = some nft →
      id < nid + 1 := by
  intro id nft hn
  by_cases hid : id = nid
  · omega
  · rw [mapSet_ne _ _ _ hid] at hn
    exact Nat.lt_succ_of_lt (hBound _ _ hn)

theorem ledgerInv_mint (c toA : Nat) (md : TokenMetadata) (s : VnftState)
    (h : LedgerInv s) : LedgerInv (mint c toA md s).2 := by
  obtain ⟨hIdx, hNod, hBound⟩ := h
  have hfresh : s.nfts s.next_id = none := by
    cases hh : s.nfts s.next_id with
    | none => rfl
    | some nft => exact absurd (hBound _ _ hh) (lt_irrefl _)
  have hfreshList : ∀ p, s.next_id ∉ ownedList s p := by
    intro p hp
    obtain ⟨nft, hn, _⟩ := (hIdx p _).1 hp
    rw [hfresh] at hn
    exact Option.noConfusion hn
  unfold mint
  split
  · exact ⟨hIdx, hNod, hBound⟩
  · split
    · exact ⟨hIdx, hNod, hBound⟩
    · exact ⟨ownerIndex_mint s.nfts s.owner_nfts s.next_id toA md hIdx hfresh,
        nodup_mint s.owner_nfts s.next_id toA hNod hfreshList,
        bound_mint s.nfts s.next_id toA md hBound⟩

theorem ownerIndex_burn (nfts : Nat → Option NFT) (ow : Nat → Option (List Nat))
    (bid caller : Nat) (owned : List Nat) (nft0 : NFT)
    (hIdx : ∀ p id, id ∈ (ow p).getD [] ↔ ∃ nft, nfts id = some nft ∧ nft.owner = p)
    (hget : nfts bid = some nft0) (hown : nft0.owner = caller)
    (hsome : ow caller = some owned) :
    ∀ p id,
      id ∈ ((mapSet ow caller (owned.filter (fun x => x ≠ bid)) p).getD []) ↔
        ∃ nft, mapErase nfts bid id = some nft ∧ nft.owner = p := by
  intro p id
  by_cases hid : id = bid
  · subst hid
    constructor
    · intro hmem
      by_cases hp : p = caller
      · subst hp
        rw [mapSet_self] at hmem
        simp only [Option.getD_some, List.mem_filter, decide_eq_true_eq] at hmem
        exact absurd rfl hmem.2
      · rw [mapSet_ne _ _ _ hp] at hmem
        obtain ⟨nft, hn, hnOwn⟩ := (hIdx p id).1 hmem
        rw [hget] at hn
        cases hn
        exact absurd (show p = caller by rw [← hnOwn]; exact hown) hp
    · rintro ⟨nft, hn, _⟩
      rw [mapErase_self] at hn
      exact Option.noConfusion hn
  · rw [mapErase_ne _ _ hid]
    by_cases hp : p = caller
    · subst hp
      rw [mapSet_self]
      have h2 := hIdx p id
      rw [hsome] at h2
      simp only [Option.getD_some] at h2
      simp only [Option.getD_some, List.mem_filter, decide_eq_true_eq]
      constructor
      · intro h3
        exact h2.1 h3.1
      · intro h3
        exact ⟨h2.2 h3, hid⟩
    · rw [mapSet_ne _ _ _ hp]
      exact hIdx p id

theorem nodup_burn (ow : Nat → Option (List Nat)) (bid caller : Nat) (owned : List Nat)
    (hNod : ∀ p, ((ow p).getD []).Nodup) (hsome : ow caller = some owned) :
    ∀ p, ((mapSet ow caller (owned.filter (fun x => x ≠ bid)) p).getD []).Nodup := by
  intro p
  by_cases hp : p = caller
  · subst hp
    rw [mapSet_self]
    simp only [Option.getD_some]
    have := hNod p
    rw [hsome] at this
    simp only [Option.getD_some] at this
    exact this.filter _
  · rw [mapSet_ne _ _ _ hp]
    exact hNod p

theorem bound_erase (nfts : Nat → Option NFT) (nid bid : Nat)
    (hBound : ∀ id nft, nfts id = some nft → id < nid) :
    ∀ id nft, mapErase nfts bid id = some nft → id < nid := by
  intro id nft hn
  by_cases hid : id = bid
  · subst hid
    rw [mapErase_self] at hn
    exact Option.noConfusion hn
  · rw [mapErase_ne _ _ hid] at hn
    exact hBound _ _ hn

theorem ledgerInv_burn (c bid : Nat) (s : VnftState)
    (h : LedgerInv s) : LedgerInv (burn c bid s).2 := by
  obtain ⟨hIdx, hNod, hBound⟩ := h
  unfold burn
  split
  · exact ⟨hIdx, hNod, hBound⟩
  rename_i nft0 hget
  split
  · exact ⟨hIdx, hNod, hBound⟩
  rename_i hownNe
  have hown : nft0.owner = c := not_ne_iff.mp hownNe
  cases hsome : s.owner_nfts c with
  | none =>
    have hmem : bid ∈ ownedList s c := (hIdx c bid).2 ⟨nft0, hget, hown⟩
    rw [ownedList, hsome] at hmem
    exact absurd hmem (by simp)
  | some owned =>
    exact ⟨ownerIndex_burn s.nfts s.owner_nfts bid c owned nft0 hIdx hget hown hsome,
      nodup_burn s.owner_nfts bid c owned hNod hsome,
      bound_erase s.nfts s.next_id bid hBound⟩

theorem ownerIndex_transfer (nfts : Nat → Option NFT) (ow : Nat → Option (List Nat))
    (tid caller toA : Nat) (owned : List Nat) (nft0 : NFT)
    (hIdx : ∀ p id, id ∈ (ow p).getD [] ↔ ∃ nft, nfts id = some nft ∧ nft.owner = p)
    (hget : nfts tid = some nft0) (hown : nft0.owner = caller)
    (hsome : ow caller = some owned) :
    ∀ p id,
      id ∈ ((mapSet (mapSet ow caller (owned.filter (fun x => x ≠ tid))) toA
              ((mapSet ow caller (owned.filter (fun x => x ≠ tid)) toA).getD [] ++ [tid])
              p).getD []) ↔
        ∃ nft, mapSet nfts tid { nft0 with owner := toA } id = some nft ∧ nft.owner = p := by
  intro p id
  set F := owned.filter (fun x => x ≠ tid) with hF
  set ow1 := mapSet ow caller F with how1
  have hA : ow1 caller = some F := mapSet_self _ _ _
  have hB : ∀ q, q ≠ caller → ow1 q = ow q := fun q hq => mapSet_ne _ _ _ hq
  have hmemF : ∀ j, j ∈ F ↔ j ∈ owned ∧ j ≠ tid := by
    intro j
    rw [hF]
    simp [List.mem_filter]
  have hOwned : ∀ j, j ∈ owned ↔ ∃ nft, nfts j = some nft ∧ nft.owner = caller := by
    intro j
    have h2 := hIdx caller j
    rw [hsome] at h2
    simpa using h2
  by_cases hp : p = toA
  · subst hp
    rw [mapSet_self]
    simp only [Option.getD_some, List.mem_append, List.mem_singleton]
    by_cases hid : id = tid
    · subst hid
      constructor
      · intro _
        rw [mapSet_self]
        exact ⟨_, rfl, rfl⟩
      · intro _
        exact Or.inr rfl
    · rw [mapSet_ne _ _ _ hid]
      simp only [hid, or_false]
      by_cases hc : p = caller
      · subst hc
        rw [hA]
        simp only [Option.getD_some]
        rw [hmemF id, hOwned id]
        simp [hid]
      · rw [hB p hc]
        exact hIdx p id
  · rw [mapSet_ne _ _ _ hp]
    by_cases hpc : p = caller
    · subst hpc
      rw [hA]
      simp only [Option.getD_some]
      by_cases hid : id = tid
      · subst hid
        constructor
        · intro hmem
          exact absurd ((hmemF id).1 hmem).2 (by simp)
        · rintro ⟨nft, hn, ho⟩
          rw [mapSet_self] at hn
          cases hn
          exact absurd ho.symm hp
      · rw [mapSet_ne _ _ _ hid]
        rw [hmemF id, hOwned id]
        simp [hid]
    · rw [hB p hpc]
      by_cases hid : id = tid
      · subst hid
        constructor
        · intro hmem
          obtain ⟨nft, hn, ho⟩ := (hIdx p id).1 hmem
          rw [hget] at hn
          cases hn
          exact absurd (show p = caller by rw [← ho]; exact hown) hpc
        · rintro ⟨nft, hn, ho⟩
          rw [mapSet_self] at hn
          cases hn
          exact absurd ho.symm hp
      · rw [mapSet_ne _ _ _ hid]
        exact hIdx p id

theorem nodup_transfer (nfts : Nat → Option NFT) (ow : Nat → Option (List Nat))
    (tid caller toA : Nat) (owned : List Nat) (nft0 : NFT)
    (hIdx : ∀ p id, id ∈ (ow p).getD [] ↔ ∃ nft, nfts id = some nft ∧ nft.owner = p)
    (hNod : ∀ p, ((ow p).getD []).Nodup)
    (hget : nfts tid = some nft0) (hown : nft0.owner = caller)
    (hsome : ow caller = some owned) :
    ∀ p,
      ((mapSet (mapSet ow caller (owned.filter (fun x => x ≠ tid))) toA
          ((mapSet ow caller (owned.filter (fun x => x ≠ tid)) toA).getD [] ++ [tid])
          p).getD []).Nodup := by
  set F := owned.filter (fun x => x ≠ tid) with hF
  set ow1 := mapSet ow caller F with how1
  have hA : ow1 caller = some F := mapSet_self _ _ _
  have hB : ∀ q, q ≠ caller → ow1 q = ow q := fun q hq => mapSet_ne _ _ _ hq
  have hOwnedNodup : owned.Nodup := by
    have := hNod caller
    rw [hsome] at this
    simpa using this
  have hFnodup : F.Nodup := by
    rw [hF]
    exact hOwnedNodup.filter _
  have h1 : ∀ q, ((ow1 q).getD []).Nodup := by
    intro q
    by_cases hq : q = caller
    · subst hq
      rw [hA]
      simpa using hFnodup
    · rw [hB q hq]
      exact hNod q
  have htid_not : tid ∉ (ow1 toA).getD [] := by
    by_cases hc : toA = caller
    · subst hc
      rw [hA]
      simp only [Option.getD_some]
      intro hmem
      rw [hF] at hmem
      simp [List.mem_filter] at hmem
    · rw [hB toA hc]
      intro hmem
      obtain ⟨nft, hn, ho⟩ := (hIdx toA tid).1 hmem
      rw [hget] at hn
      cases hn
      exact hc (by rw [← ho]; exact hown)
  intro p
  by_cases hp : p = toA
  · subst hp
    rw [mapSet_self]
    simp only [Option.getD_some]
    rw [List.nodup_append]
    refine ⟨h1 p, List.nodup_singleton _, ?_⟩
    intro a ha hb
    rw [List.mem_singleton] at hb
    subst hb
    exact htid_not ha
  · rw [mapSet_ne _ _ _ hp]
    exact h1 p

theorem bound_set_existing (nfts : Nat → Option NFT) (nid tid : Nat) (v : NFT)
    (hBound : ∀ id nft, nfts id = some nft → id < nid) (htid : tid < nid) :
    ∀ id nft, mapSet nfts tid v id = some nft → id < nid := by
  intro id nft hn
  by_cases hid : id = tid
  · subst hid
    exact htid
  · rw [mapSet_ne _ _ _ hid] at hn
    exact hBound _ _ hn

theorem ledgerInv_transfer (c tid toA : Nat) (s : VnftState)
    (h : LedgerInv s) : LedgerInv (transfer c tid toA s).2 := by
  obtain ⟨hIdx, hNod, hBound⟩ := h
  unfold transfer
  split
  · exact ⟨hIdx, hNod, hBound⟩
  rename_i nft0 hget
  split
  · exact ⟨hIdx, hNod, hBound⟩
  rename_i hownNe
  have hown : nft0.owner = c := not_ne_iff.mp hownNe
  cases hsome : s.owner_nfts nft0.owner with
  | none =>
    have hsome2 : s.owner_nfts c = none := by rw [← hown]; exact hsome
    have hmem : tid ∈ ownedList s c := (hIdx c tid).2 ⟨nft0, hget, hown⟩
    rw [ownedList, hsome2] at hmem
    exact absurd hmem (by simp)
  | some owned =>
    have hsome2 : s.owner_nfts nft0.owner = some owned := hsome
    exact ⟨hown ▸ ownerIndex_transfer s.nfts s.owner_nfts tid nft0.owner toA owned nft0
        hIdx hget rfl hsome2,
      hown ▸ nodup_transfer s.nfts s.owner_nfts tid nft0.owner toA owned nft0
        hIdx hNod hget rfl hsome2,
      bound_set_existing s.nfts s.next_id tid _ hBound (hBound _ _ hget)⟩

theorem ownerIndex_set_same_owner (nfts : Nat → Option NFT) (ow : Nat → Option (List Nat))
    (tid : Nat) (nft0 nft1 : NFT)
    (hIdx : ∀ p id, id ∈ (ow p).getD [] ↔ ∃ nft, nfts id = some nft ∧ nft.owner = p)
    (hget : nfts tid = some nft0) (hown : nft1.owner = nft0.owner) :
    ∀ p id,
      id ∈ (ow p).getD [] ↔ ∃ nft, mapSet nfts tid nft1 id = some nft ∧ nft.owner = p := by
  intro p id
  by_cases hid : id = tid
  · subst hid
    rw [mapSet_self]
    have h2 := hIdx p id
    rw [hget] at h2
    constructor
    · intro hmem
      obtain ⟨nft, hn, ho⟩ := h2.1 hmem
      cases hn
      exact ⟨nft1, rfl, by rw [hown]; exact ho⟩
    · rintro ⟨nft, hn, ho⟩
      cases hn
      exact h2.2 ⟨nft0, rfl, by rw [← hown]; exact ho⟩
  · rw [mapSet_ne _ _ _ hid]
    exact hIdx p id

theorem ledgerInv_set_same_owner (s : VnftState) (tid : Nat) (nft0 nft1 : NFT)
    (h : LedgerInv s) (hget : s.nfts tid = some nft0) (hown : nft1.owner = nft0.owner) :
    LedgerInv { s with nfts := mapSet s.nfts tid nft1 } := by
  obtain ⟨hIdx, hNod, hBound⟩ := h
  exact ⟨ownerIndex_set_same_owner s.nfts s.owner_nfts tid nft0 nft1 hIdx hget hown,
    hNod,
    bound_set_existing s.nfts s.next_id tid nft1 hBound (hBound _ _ hget)⟩

theorem ledgerInv_smu_inner (progId g tid src n p : Nat) (s : VnftState)
    (h : LedgerInv s) :
    LedgerInv (start_metadata_updates progId g tid src n p s).2.1 := by
  unfold start_metadata_updates
  split
  · exact h
  rename_i nft0 hget
  split
  · exact h
  split
  · exact h
  exact ledgerInv_set_same_owner s tid nft0 _ h hget rfl

theorem ledgerInv_umu_inner (progId g tid ow p n : Nat) (s : VnftState)
    (h : LedgerInv s) :
    LedgerInv (updates_metadata progId g tid ow p n s).2.1 := by
  unfold updates_metadata
  split
  · exact h
  rename_i nft0 hget
  split
  · exact h
  split
  · exact h
  exact ledgerInv_set_same_owner s tid nft0 _ h hget rfl

theorem ledgerInv_start_metadata_update (c progId n p tid : Nat) (s : VnftState)
    (h : LedgerInv s) :
    LedgerInv (start_metadata_update c progId n p tid s).2.1 := by
  have hinner := ledgerInv_smu_inner progId s.gas_for_one_time_updating tid c n p s h
  unfold start_metadata_update
  split
  · exact h
  split
  · exact h
  rcases hres : start_metadata_updates progId s.gas_for_one_time_updating tid c n p s
    with ⟨fst, s1, msgs⟩
  rw [hres] at hinner
  cases fst
  · exact hinner
  · exact hinner

theorem ledgerInv_update_metadata (c progId g tid ow p n : Nat) (s : VnftState)
    (h : LedgerInv s) :
    LedgerInv (update_metadata c progId g tid ow p n s).2.1 := by
  have hinner := ledgerInv_umu_inner progId g tid ow p n s h
  unfold update_metadata
  split
  · exact h
  rcases hres : updates_metadata progId g tid ow p n s with ⟨fst, s1, msgs⟩
  rw [hres] at hinner
  cases fst
  · exact hinner
  · exact hinner

theorem ledgerInv_set_main_contract (c mc : Nat) (s : VnftState)
    (h : LedgerInv s) : LedgerInv (set_main_contract c mc s).2 := by
  obtain ⟨hIdx, hNod, hBound⟩ := h
  unfold set_main_contract
  split
  · exact ⟨hIdx, hNod, hBound⟩
  · exact ⟨hIdx, hNod, hBound⟩

theorem ledgerInv_applyOp (op : Op) (s : VnftState) (h : LedgerInv s) :
    LedgerInv (applyOp op s) := by
  cases op with
  | mintOp c toA md => exact ledgerInv_mint c toA md s h
  | burnOp c id => exact ledgerInv_burn c id s h
  | transferOp c id toA => exact ledgerInv_transfer c id toA s h
  | setMainOp c mc => exact ledgerInv_set_main_contract c mc s h
  | startUpdOp c pr n p tid => exact ledgerInv_start_metadata_update c pr n p tid s h
  | updMetaOp c pr g tid ow p n => exact ledgerInv_update_metadata c pr g tid ow p n s h

theorem ledgerInv_runOps (ops : List Op) (s : VnftState) (h : LedgerInv s) :
    LedgerInv (runOps ops s) := by
  induction ops generalizing s with
  | nil => exact h
  | cons op ops ih => exact ih (applyOp op s) (ledgerInv_applyOp op s h)

/-! ## Monotonicity of the id counter -/

theorem next_id_smu_inner (progId g tid src n p : Nat) (s : VnftState) :
    (start_metadata_updates progId g tid src n p s).2.1.next_id = s.next_id := by
  unfold start_metadata_updates
  split
  · rfl
  split
  · rfl
  split
  · rfl
  · rfl

theorem next_id_umu_inner (progId g tid ow p n : Nat) (s : VnftState) :
    (updates_metadata progId g tid ow p n s).2.1.next_id = s.next_id := by
  unfold updates_metadata
  split
  · rfl
  split
  · rfl
  split
  · rfl
  · rfl

theorem next_id_applyOp (op : Op) (s : VnftState) :
    (applyOp op s).next_id = s.next_id ∨ (applyOp op s).next_id = s.next_id + 1 := by
  cases op with
  | mintOp c toA md =>
    simp only [applyOp]
    unfold mint
    split
    · exact Or.inl rfl
    split
    · exact Or.inl rfl
    · exact Or.inr rfl
  | burnOp c id =>
    simp only [applyOp]
    unfold burn
    split
    · exact Or.inl rfl
    split
    · exact Or.inl rfl
    · exact Or.inl rfl
  | transferOp c id toA =>
    simp only [applyOp]
    unfold transfer
    split
    · exact Or.inl rfl
    split
    · exact Or.inl rfl
    · exact Or.inl rfl
  | setMainOp c mc =>
    simp only [applyOp]
    unfold set_main_contract
    split
    · exact Or.inl rfl
    · exact Or.inl rfl
  | startUpdOp c pr n p tid =>
    refine Or.inl ?_
    simp only [applyOp]
    have hinner := next_id_smu_inner pr s.gas_for_one_time_updating tid c n p s
    unfold start_metadata_update
    split
    · rfl
    split
    · rfl
    rcases hres : start_metadata_updates pr s.gas_for_one_time_updating tid c n p s
      with ⟨fst, s1, msgs⟩
    rw [hres] at hinner
    cases fst
    · exact hinner
    · exact hinner
  | updMetaOp c pr g tid ow p n =>
    refine Or.inl ?_
    simp only [applyOp]
    have hinner := next_id_umu_inner pr g tid ow p n s
    unfold update_metadata
    split
    · rfl
    rcases hres : updates_metadata pr g tid ow p n s with ⟨fst, s1, msgs⟩
    rw [hres] at hinner
    cases fst
    · exact hinner
    · exact hinner

theorem next_id_le_applyOp (op : Op) (s : VnftState) :
    s.next_id ≤ (applyOp op s).next_id := by
  rcases next_id_applyOp op s with h | h <;> omega

theorem next_id_le_runOps (ops : List Op) (s : VnftState) :
    s.next_id ≤ (runOps ops s).next_id := by
  induction ops generalizing s with
  | nil => exact le_refl _
  | cons op ops ih =>
    exact le_trans (next_id_le_applyOp op s) (ih (applyOp op s))

theorem mintEventId_cases (op : Op) (s : VnftState) :
    mintEventId op s = [] ∨
      (mintEventId op s = [s.next_id] ∧ (applyOp op s).next_id = s.next_id + 1) := by
  cases op with
  | mintOp c toA md =>
    simp only [mintEventId, applyOp]
    unfold mint
    by_cases h1 : ¬ (c = s.admin) ∧ ¬ (s.main_contract = some c)
    · rw [if_pos h1]
      exact Or.inl rfl
    · rw [if_neg h1]
      by_cases h2 : U64MOD ≤ s.next_id + 1
      · rw [if_pos h2]
        exact Or.inl rfl
      · rw [if_neg h2]
        exact Or.inr ⟨rfl, rfl⟩
  | burnOp c id => exact Or.inl rfl
  | transferOp c id toA => exact Or.inl rfl
  | setMainOp c mc => exact Or.inl rfl
  | startUpdOp c pr n p tid => exact Or.inl rfl
  | updMetaOp c pr g tid ow p n => exact Or.inl rfl

theorem mintedIds_spec (ops : List Op) (s : VnftState) :
    (∀ x ∈ mintedIds ops s, s.next_id ≤ x ∧ x < (runOps ops s).next_id) ∧
      (mintedIds ops s).Pairwise (· < ·) := by
  induction ops generalizing s with
  | nil =>
    refine ⟨?_, by simp [mintedIds]⟩
    intro x hx
    simp [mintedIds] at hx
  | cons op ops ih =>
    obtain ⟨ihB, ihP⟩ := ih (applyOp op s)
    have hste : s.next_id ≤ (applyOp op s).next_id := next_id_le_applyOp op s
    have hrun : runOps (op :: ops) s = runOps ops (applyOp op s) := rfl
    have hmid : mintedIds (op :: ops) s = mintEventId op s ++ mintedIds ops (applyOp op s) := rfl
    rcases mintEventId_cases op s with hcase | ⟨hcase, hnext⟩
    · rw [hmid, hcase, List.nil_append]
      refine ⟨?_, ihP⟩
      intro x hx
      obtain ⟨h1, h2⟩ := ihB x hx
      rw [hrun]
      exact ⟨le_trans hste h1, h2⟩
    · rw [hmid, hcase, List.singleton_append]
      constructor
      · intro x hx
        rw [List.mem_cons] at hx
        rcases hx with hx | hx
        · subst hx
          refine ⟨le_refl _, ?_⟩
          rw [hrun]
          have h4 := next_id_le_runOps ops (applyOp op s)
          omega
        · obtain ⟨h1, h2⟩ := ihB x hx
          rw [hrun]
          exact ⟨le_trans hste h1, h2⟩
      · refine List.Pairwise.cons ?_ ihP
        intro b hb
        have h1 := (ihB b hb).1
        omega

/-- C1: in every reachable state of the vNFT ledger (every state obtained
from `initState` by a sequence of mint / burn / transfer /
set-main-contract / metadata-update invocations, each either succeeding
or aborting without mutation), a token id lies in the owner-index entry
of a principal `p` iff the stored token with that id has owner `p`; no
owner's entry contains a duplicate id; and the entry of an owner holding
zero tokens is empty (absent entries read as the empty list). -/
theorem vnft_owner_index_consistency (a : Nat) (mc : Option Nat) (g : Nat) (ops : List Op) :
    (∀ p id, id ∈ ownedList (runOps ops (initState a mc g)) p ↔
      ∃ nft, (runOps ops (initState a mc g)).nfts id = some nft ∧ nft.owner = p) ∧
    (∀ p, (ownedList (runOps ops (initState a mc g)) p).Nodup) ∧
    (∀ p, (∀ id nft, (runOps ops (initState a mc g)).nfts id = some nft → nft.owner ≠ p) →
      ownedList (runOps ops (initState a mc g)) p = []) := by
  obtain ⟨hIdx, hNod, hBound⟩ := ledgerInv_runOps ops _ (ledgerInv_initState a mc g)
  refine ⟨hIdx, hNod, ?_⟩
  intro p hnone
  rw [List.eq_nil_iff_forall_not_mem]
  intro id hid
  obtain ⟨nft, hn, ho⟩ := (hIdx p id).1 hid
  exact hnone id nft hn ho

/-- Witness for C1: in the sample reachable state, principal 9 (holding
no token) has an empty owner-index entry. -/
theorem vnft_owner_index_consistency_witness : ownedList sSample 9 = [] :=
  (vnft_owner_index_consistency 1 none 10 [Op.mintOp 1 5 mdSample]).2.2 9
    (by
      have hfn : ∀ id, (runOps [Op.mintOp 1 5 mdSample] (initState 1 none 10)).nfts id =
          if id = 1 then some { id := 1, owner := 5, metadata := mdSample } else none :=
        fun id => rfl
      intro id nft hn
      rw [hfn id] at hn
      by_cases hid : id = 1
      · rw [if_pos hid] at hn
        cases hn
        decide
      · rw [if_neg hid] at hn
        exact Option.noConfusion hn)

/-- C2: along every sequence of invocations (mints interleaved with burns
and any other operations), the token ids returned by successful mints are
strictly increasing — hence never repeated, even after the token bearing
an id is burned — and `next_id` stays strictly greater than every issued
id. -/
theorem vnft_minted_ids_strictly_increasing (a : Nat) (mc : Option Nat) (g : Nat)
    (ops : List Op) :
    (mintedIds ops (initState a mc g)).Pairwise (· < ·) ∧
      ∀ x ∈ mintedIds ops (initState a mc g),
        x < (runOps ops (initState a mc g)).next_id := by
  obtain ⟨hB, hP⟩ := mintedIds_spec ops (initState a mc g)
  exact ⟨hP, fun x hx => (hB x hx).2⟩

/-- Witness for C2: after three mints and a burn, the issued ids are
below the final `next_id`. -/
theorem vnft_minted_ids_strictly_increasing_witness :
    (3 : Nat) < (runOps [Op.mintOp 1 2 mdSample, Op.mintOp 1 3 mdSample,
      Op.burnOp 2 1, Op.mintOp 1 4 mdSample] (initState 1 none 0)).next_id :=
  (vnft_minted_ids_strictly_increasing 1 none 0 [Op.mintOp 1 2 mdSample,
      Op.mintOp 1 3 mdSample, Op.burnOp 2 1, Op.mintOp 1 4 mdSample]).2 3
    (by decide)

/-! ## Media-index invariant -/

theorem mediaInv_set (nfts : Nat → Option NFT) (tid : Nat) (nft1 : NFT)
    (h : ∀ id nft, nfts id = some nft → nft.metadata.media ≠ [] →
      nft.metadata.current_media_index < nft.metadata.media.length)
    (h1 : nft1.metadata.media ≠ [] →
      nft1.metadata.current_media_index < nft1.metadata.media.length) :
    ∀ id nft, mapSet nfts tid nft1 id = some nft → nft.metadata.media ≠ [] →
      nft.metadata.current_media_index < nft.metadata.media.length := by
  intro id nft hn hne
  by_cases hid : id = tid
  · subst hid
    rw [mapSet_self] at hn
    cases hn
    exact h1 hne
  · rw [mapSet_ne _ _ _ hid] at hn
    exact h _ _ hn hne

theorem mediaInv_erase (nfts : Nat → Option NFT) (bid : Nat)
    (h : ∀ id nft, nfts id = some nft → nft.metadata.media ≠ [] →
      nft.metadata.current_media_index < nft.metadata.media.length) :
    ∀ id nft, mapErase nfts bid id = some nft → nft.metadata.media ≠ [] →
      nft.metadata.current_media_index < nft.metadata.media.length := by
  intro id nft hn hne
  by_cases hid : id = bid
  · subst hid
    rw [mapErase_self] at hn
    exact Option.noConfusion hn
  · rw [mapErase_ne _ _ hid] at hn
    exact h _ _ hn hne

theorem mediaInv_applyOp (op : Op) (s : VnftState) (h : MediaIndexInv s)
    (hop : MintWellFormed op) : MediaIndexInv (applyOp op s) := by
  cases op with
  | mintOp c toA md =>
    simp only [applyOp]
    unfold mint
    split
    · exact h
    split
    · exact h
    · exact mediaInv_set s.nfts s.next_id _ h hop
  | burnOp c id =>
    simp only [applyOp]
    unfold burn
    split
    · exact h
    rename_i nft0 hget
    split
    · exact h
    · exact mediaInv_erase s.nfts id h
  | transferOp c id toA =>
    simp only [applyOp]
    unfold transfer
    split
    · exact h
    rename_i nft0 hget
    split
    · exact h
    · exact mediaInv_set s.nfts id _ h (fun hne => h id nft0 hget hne)
  | setMainOp c mc =>
    simp only [applyOp]
    unfold set_main_contract
    split
    · exact h
    · exact h
  | startUpdOp c pr n p tid =>
    simp only [applyOp]
    have hinner : MediaIndexInv
        (start_metadata_updates pr s.gas_for_one_time_updating tid c n p s).2.1 := by
      unfold start_metadata_updates
      split
      · exact h
      rename_i nft0 hget
      split
      · exact h
      split
      · exact h
      rename_i hlen
      exact mediaInv_set s.nfts tid _ h
        (fun _ => Nat.mod_lt _ (Nat.pos_of_ne_zero hlen))
    unfold start_metadata_update
    split
    · exact h
    split
    · exact h
    rcases hres : start_metadata_updates pr s.gas_for_one_time_updating tid c n p s
      with ⟨fst, s1, msgs⟩
    rw [hres] at hinner
    cases fst
    · exact hinner
    · exact hinner
  | updMetaOp c pr g tid ow p n =>
    simp only [applyOp]
    have hinner : MediaIndexInv (updates_metadata pr g tid ow p n s).2.1 := by
      unfold updates_metadata
      split
      · exact h
      rename_i nft0 hget
      split
      · exact h
      split
      · exact h
      rename_i hlen
      exact mediaInv_set s.nfts tid _ h
        (fun _ => Nat.mod_lt _ (Nat.pos_of_ne_zero hlen))
    unfold update_metadata
    split
    · exact h
    rcases hres : updates_metadata pr g tid ow p n s with ⟨fst, s1, msgs⟩
    rw [hres] at hinner
    cases fst
    · exact hinner
    · exact hinner

/-- C3 counterexample: the state `sBadIdx`, reached from `initState` by
one successful mint, stores a token with a non-empty media list whose
`current_media_index` (5) is not below the media length (1): `mint`
performs no metadata validation, so the invariant fails on a reachable
state. -/
theorem vnft_media_index_invariant_counterexample :
    (mint 1 1 mdBadIdx (initState 1 none 0)).1 = .ok (.Minted 1 1) ∧
      ¬ MediaIndexInv sBadIdx := by
  refine ⟨by decide, ?_⟩
  intro h
  have h2 := h 1 { id := 1, owner := 1, metadata := mdBadIdx } (by decide) (by decide)
  exact absurd h2 (by decide)

/-- C3 (amended): in every state reachable via invocations whose mints
all supply well-formed metadata (`current_media_index < len(media)`
whenever the media list is non-empty), every stored token with a
non-empty media list satisfies `current_media_index < len(media)`.
The unamended claim fails because `mint` accepts arbitrary metadata. -/
theorem vnft_media_index_invariant_wellformed (a : Nat) (mc : Option Nat) (g : Nat)
    (ops : List Op) (hops : ∀ op ∈ ops, MintWellFormed op) :
    MediaIndexInv (runOps ops (initState a mc g)) := by
  have hgen : ∀ (ops2 : List Op) (s : VnftState), MediaIndexInv s →
      (∀ op ∈ ops2, MintWellFormed op) → MediaIndexInv (runOps ops2 s) := by
    intro ops2
    induction ops2 with
    | nil => exact fun s hs _ => hs
    | cons op ops2 ih =>
      intro s hs hops2
      exact ih (applyOp op s)
        (mediaInv_applyOp op s hs (hops2 op (List.mem_cons_self op ops2)))
        (fun o ho => hops2 o (List.mem_cons_of_mem op ho))
  refine hgen ops (initState a mc g) ?_ hops
  intro id nft hn
  exact absurd hn (by simp [initState])

/-- Witness for the amended C3: the sample reachable state (built from
one well-formed mint) satisfies the media-index invariant. -/
theorem vnft_media_index_invariant_wellformed_witness : MediaIndexInv sSample :=
  vnft_media_index_invariant_wellformed 1 none 10 [Op.mintOp 1 5 mdSample]
    (by
      intro op hop
      rw [List.mem_singleton] at hop
      subst hop
      intro hne
      decide)

/-! ## Equation lemmas for the metadata entry points -/

theorem smu_none (progId g tid src n p : Nat) (s : VnftState)
    (h : s.nfts tid = none) :
    start_metadata_updates progId g tid src n p s = (.error .TokenDoesNotExist, s, []) := by
  simp only [start_metadata_updates, h]

theorem smu_denied (progId g tid src n p : Nat) (s : VnftState) (nft : NFT)
    (h : s.nfts tid = some nft) (h2 : nft.owner ≠ src) :
    start_metadata_updates progId g tid src n p s = (.error .DeniedAccess, s, []) := by
  simp only [start_metadata_updates, h]
  rw [if_pos h2]

theorem smu_empty (progId g tid src n p : Nat) (s : VnftState) (nft : NFT)
    (h : s.nfts tid = some nft) (h2 : nft.owner = src) (h3 : nft.metadata.media = []) :
    start_metadata_updates progId g tid src n p s = (.error .TokenDoesNotExist, s, []) := by
  simp only [start_metadata_updates, h]
  rw [if_neg (not_not_intro h2), if_pos (by rw [h3]; rfl)]

theorem smu_success (progId g tid src n p : Nat) (s : VnftState) (nft : NFT)
    (h : s.nfts tid = some nft) (h2 : nft.owner = src) (h3 : nft.metadata.media ≠ []) :
    start_metadata_updates progId g tid src n p s =
      (.ok (),
        { s with nfts := mapSet s.nfts tid (advanceToken nft) },
        if n - 1 ≠ 0 then
          [{ dest := progId, token_id := tid, owner := src, update_period := p,
             updates_count := n - 1, gas := satMul g n, value := 0, delay := p }]
        else []) := by
  simp only [start_metadata_updates, h]
  rw [if_neg (not_not_intro h2), if_neg (fun hl => h3 (List.length_eq_zero.mp hl))]
  rfl

theorem umu_none (progId g tid ow p n : Nat) (s : VnftState)
    (h : s.nfts tid = none) :
    updates_metadata progId g tid ow p n s = (.error .TokenDoesNotExist, s, []) := by
  simp only [updates_metadata, h]

theorem umu_denied (progId g tid ow p n : Nat) (s : VnftState) (nft : NFT)
    (h : s.nfts tid = some nft) (h2 : nft.owner ≠ ow) :
    updates_metadata progId g tid ow p n s = (.error .DeniedAccess, s, []) := by
  simp only [updates_metadata, h]
  rw [if_pos h2]

theorem umu_empty (progId g tid ow p n : Nat) (s : VnftState) (nft : NFT)
    (h : s.nfts tid = some nft) (h2 : nft.owner = ow) (h3 : nft.metadata.media = []) :
    updates_metadata progId g tid ow p n s = (.error .TokenDoesNotExist, s, []) := by
  simp only [updates_metadata, h]
  rw [if_neg (not_not_intro h2), if_pos (by rw [h3]; rfl)]

theorem umu_success (progId g tid ow p n : Nat) (s : VnftState) (nft : NFT)
    (h : s.nfts tid = some nft) (h2 : nft.owner = ow) (h3 : nft.metadata.media ≠ []) :
    updates_metadata progId g tid ow p n s =
      (.ok (satAdd nft.metadata.current_media_index 1 % nft.metadata.media.length),
        { s with nfts := mapSet s.nfts tid (advanceToken nft) },
        if n - 1 ≠ 0 then
          [{ dest := progId, token_id := tid, owner := ow, update_period := p,
             updates_count := n - 1, gas := g - 1000000000, value := 0, delay := p }]
        else []) := by
  simp only [updates_metadata, h]
  rw [if_neg (not_not_intro h2), if_neg (fun hl => h3 (List.length_eq_zero.mp hl))]
  rfl

theorem smuW_zero_count (c pr p tid : Nat) (s : VnftState) :
    start_metadata_update c pr 0 p tid s = (.error .InvalidUpdateCount, s, []) := by
  unfold start_metadata_update
  rw [if_pos rfl]

theorem smuW_zero_period (c pr n tid : Nat) (s : VnftState) (hn : n ≠ 0) :
    start_metadata_update c pr n 0 tid s = (.error .InvalidUpdatePeriod, s, []) := by
  unfold start_metadata_update
  rw [if_neg hn, if_pos rfl]

theorem smuW_err (c pr n p tid : Nat) (s s1 : VnftState) (e : VnftError)
    (msgs : List ScheduledMsg) (hn : n ≠ 0) (hp : p ≠ 0)
    (hinner : start_metadata_updates pr s.gas_for_one_time_updating tid c n p s =
      (.error e, s1, msgs)) :
    start_metadata_update c pr n p tid s = (.error e, s1, msgs) := by
  simp only [start_metadata_update]
  rw [if_neg hn, if_neg hp, hinner]

theorem smuW_ok (c pr n p tid : Nat) (s s1 : VnftState)
    (msgs : List ScheduledMsg) (hn : n ≠ 0) (hp : p ≠ 0)
    (hinner : start_metadata_updates pr s.gas_for_one_time_updating tid c n p s =
      (.ok (), s1, msgs)) :
    start_metadata_update c pr n p tid s =
      (.ok (.MetadataStartedUpdating n p tid), s1, msgs) := by
  simp only [start_metadata_update]
  rw [if_neg hn, if_neg hp, hinner]

theorem umuW_not_self (c pr g tid ow p n : Nat) (s : VnftState) (h : c ≠ pr) :
    update_metadata c pr g tid ow p n s = (.error .OnlyProgramCanUpdate, s, []) := by
  simp only [update_metadata]
  rw [if_pos h]

theorem umuW_err (pr g tid ow p n : Nat) (s s1 : VnftState) (e : VnftError)
    (msgs : List ScheduledMsg)
    (hinner : updates_metadata pr g tid ow p n s = (.error e, s1, msgs)) :
    update_metadata pr pr g tid ow p n s = (.error e, s1, msgs) := by
  simp only [update_metadata]
  rw [if_neg (not_not_intro rfl), hinner]

theorem umuW_ok (pr g tid ow p n idx : Nat) (s s1 : VnftState)
    (msgs : List ScheduledMsg)
    (hinner : updates_metadata pr g tid ow p n s = (.ok idx, s1, msgs)) :
    update_metadata pr pr g tid ow p n s =
      (.ok (.MetadataUpdated tid idx), s1, msgs) := by
  simp only [update_metadata]
  rw [if_neg (not_not_intro rfl), hinner]

/-- C4 counterexample: in the reachable state `sMaxIdx` token 1 has
media length 2 and `current_media_index = u64::MAX`; a successful
`start_metadata_update` by the owner sets the index to
`u64::MAX % 2 = 1` (saturating increment), not to
`(u64::MAX + 1) % 2 = 0` as the claim's `(index + 1) mod len` formula
demands. -/
theorem vnft_start_advance_formula_counterexample :
    (start_metadata_update 1 7 1 1 1 sMaxIdx).1 = .ok (.MetadataStartedUpdating 1 1 1) ∧
    tokenIdx sMaxIdx 1 = some U64MAX ∧
    mdMaxIdx.media.length = 2 ∧
    tokenIdx (start_metadata_update 1 7 1 1 1 sMaxIdx).2.1 1 = some 1 ∧
    (U64MAX + 1) % 2 = 0 ∧
    tokenIdx (start_metadata_update 1 7 1 1 1 sMaxIdx).2.1 1 ≠ some ((U64MAX + 1) % 2) := by
  decide

/-- C4 (amended): for every token with a non-empty media list owned by
the caller and with `current_media_index < u64::MAX`, a call
`start_metadata_update` with `updates_count ≥ 1` and `update_period ≥ 1`
succeeds and advances that token's index exactly once, synchronously
within the call, to `(current_media_index + 1) mod len(media)`,
regardless of `updates_count`.  (The code uses a saturating increment,
so at `current_media_index = u64::MAX` the new index is
`u64::MAX % len` instead.) -/
theorem vnft_start_advances_once (s : VnftState) (c pr n p tid : Nat) (nft : NFT)
    (hget : s.nfts tid = some nft) (hown : nft.owner = c)
    (hne : nft.metadata.media ≠ []) (hn : 1 ≤ n) (hp : 1 ≤ p)
    (hidx : nft.metadata.current_media_index < U64MAX) :
    (start_metadata_update c pr n p tid s).1 = .ok (.MetadataStartedUpdating n p tid) ∧
    (start_metadata_update c pr n p tid s).2.1 =
      { s with nfts := mapSet s.nfts tid (advanceToken nft) } ∧
    advancedIdx nft =
      (nft.metadata.current_media_index + 1) % nft.metadata.media.length := by
  have hn0 : n ≠ 0 := by omega
  have hp0 : p ≠ 0 := by omega
  have hW := smuW_ok c pr n p tid s _ _ hn0 hp0
    (smu_success pr s.gas_for_one_time_updating tid c n p s nft hget hown hne)
  refine ⟨?_, ?_, ?_⟩
  · rw [hW]
  · rw [hW]
  · unfold advancedIdx satAdd
    rw [Nat.min_eq_left hidx]

/-- Witness for the amended C4: starting four updates on the sample
token advances its index exactly once within the call. -/
theorem vnft_start_advances_once_witness :
    (start_metadata_update 5 9 4 2 1 sSample).1 = .ok (.MetadataStartedUpdating 4 2 1) :=
  (vnft_start_advances_once sSample 5 9 4 2 1 { id := 1, owner := 5, metadata := mdSample }
    (by decide) (by decide) (by decide) (by decide) (by decide) (by decide)).1

/-- C5: `update_metadata` fails with `OnlyProgramCanUpdate`, leaving the
state unchanged and scheduling nothing, whenever the caller is not the
program's own address; and when invoked by the program on a missing
token, or on a token whose current owner differs from the owner carried
in the continuation payload, it fails with `TokenDoesNotExist` resp.
`DeniedAccess`, again leaving the state unchanged (no index advance) and
scheduling no further continuation, so the update chain terminates. -/
theorem vnft_update_metadata_guards :
    (∀ (s : VnftState) (c pr g tid ow p n : Nat), c ≠ pr →
      update_metadata c pr g tid ow p n s = (.error .OnlyProgramCanUpdate, s, [])) ∧
    (∀ (s : VnftState) (pr g tid ow p n : Nat), s.nfts tid = none →
      update_metadata pr pr g tid ow p n s = (.error .TokenDoesNotExist, s, [])) ∧
    (∀ (s : VnftState) (pr g tid ow p n : Nat) (nft : NFT),
      s.nfts tid = some nft → nft.owner ≠ ow →
      update_metadata pr pr g tid ow p n s = (.error .DeniedAccess, s, [])) := by
  refine ⟨?_, ?_, ?_⟩
  · intro s c pr g tid ow p n h
    exact umuW_not_self c pr g tid ow p n s h
  · intro s pr g tid ow p n h
    exact umuW_err pr g tid ow p n s s _ [] (umu_none pr g tid ow p n s h)
  · intro s pr g tid ow p n nft h h2
    exact umuW_err pr g tid ow p n s s _ [] (umu_denied pr g tid ow p n s nft h h2)

/-- Witness for C5: an external caller (4 ≠ program id 9) is rejected
without mutation. -/
theorem vnft_update_metadata_guards_witness :
    update_metadata 4 9 0 1 5 1 1 sSample = (.error .OnlyProgramCanUpdate, sSample, []) :=
  vnft_update_metadata_guards.1 sSample 4 9 0 1 5 1 1 (by decide)

/-- C6: a successful `start_metadata_update` with count `n` schedules,
when `n - 1 > 0`, exactly one delayed self-addressed message (target is
the program id) carrying `(token_id, caller, update_period, n - 1)`,
delivered after `update_period` blocks and funded with gas
`gas_for_one_time_updating * n` (saturating) — proportional to the
update count at schedule time; when `n - 1 = 0` it schedules nothing and
the chain ends with this single step. -/
theorem vnft_start_schedules_continuation (s : VnftState) (c pr n p tid : Nat) (nft : NFT)
    (hget : s.nfts tid = some nft) (hown : nft.owner = c)
    (hne : nft.metadata.media ≠ []) (hn : n ≠ 0) (hp : p ≠ 0) :
    (start_metadata_update c pr n p tid s).1 = .ok (.MetadataStartedUpdating n p tid) ∧
    (start_metadata_update c pr n p tid s).2.2 =
      if n - 1 ≠ 0 then
        [{ dest := pr, token_id := tid, owner := c, update_period := p,
           updates_count := n - 1, gas := satMul s.gas_for_one_time_updating n,
           value := 0, delay := p }]
      else [] := by
  have hW := smuW_ok c pr n p tid s _ _ hn hp
    (smu_success pr s.gas_for_one_time_updating tid c n p s nft hget hown hne)
  rw [hW]
  exact ⟨rfl, rfl⟩

/-- Witness for C6: starting three updates on the sample token schedules
one continuation with count 2 and gas 10 * 3 = 30; starting one update
schedules nothing. -/
theorem vnft_start_schedules_continuation_witness :
    (start_metadata_update 5 9 3 2 1 sSample).2.2 =
      [{ dest := 9, token_id := 1, owner := 5, update_period := 2,
         updates_count := 2, gas := 30, value := 0, delay := 2 }] := by
  have h := (vnft_start_schedules_continuation sSample 5 9 3 2 1
    { id := 1, owner := 5, metadata := mdSample }
    (by decide) (by decide) (by decide) (by decide) (by decide)).2
  rw [h]
  decide

/-- C7: `start_metadata_update` rejects `updates_count = 0` with
`InvalidUpdateCount` and `update_period = 0` with `InvalidUpdatePeriod`
before touching the token; with non-zero arguments it rejects a missing
token with `TokenDoesNotExist`, a caller other than the current owner
with `DeniedAccess`, and an owned token with an empty media list with
`TokenDoesNotExist`; every rejected invocation returns the state
unchanged and schedules nothing. -/
theorem vnft_start_rejections :
    (∀ (s : VnftState) (c pr p tid : Nat),
      start_metadata_update c pr 0 p tid s = (.error .InvalidUpdateCount, s, [])) ∧
    (∀ (s : VnftState) (c pr n tid : Nat), n ≠ 0 →
      start_metadata_update c pr n 0 tid s = (.error .InvalidUpdatePeriod, s, [])) ∧
    (∀ (s : VnftState) (c pr n p tid : Nat), n ≠ 0 → p ≠ 0 → s.nfts tid = none →
      start_metadata_update c pr n p tid s = (.error .TokenDoesNotExist, s, [])) ∧
    (∀ (s : VnftState) (c pr n p tid : Nat) (nft : NFT), n ≠ 0 → p ≠ 0 →
      s.nfts tid = some nft → nft.owner ≠ c →
      start_metadata_update c pr n p tid s = (.error .DeniedAccess, s, [])) ∧
    (∀ (s : VnftState) (c pr n p tid : Nat) (nft : NFT), n ≠ 0 → p ≠ 0 →
      s.nfts tid = some nft → nft.owner = c → nft.metadata.media = [] →
      start_metadata_update c pr n p tid s = (.error .TokenDoesNotExist, s, [])) := by
  refine ⟨?_, ?_, ?_, ?_, ?_⟩
  · intro s c pr p tid
    exact smuW_zero_count c pr p tid s
  · intro s c pr n tid hn
    exact smuW_zero_period c pr n tid s hn
  · intro s c pr n p tid hn hp h
    exact smuW_err c pr n p tid s s _ [] hn hp
      (smu_none pr s.gas_for_one_time_updating tid c n p s h)
  · intro s c pr n p tid nft hn hp h h2
    exact smuW_err c pr n p tid s s _ [] hn hp
      (smu_denied pr s.gas_for_one_time_updating tid c n p s nft h h2)
  · intro s c pr n p tid nft hn hp h h2 h3
    exact smuW_err c pr n p tid s s _ [] hn hp
      (smu_empty pr s.gas_for_one_time_updating tid c n p s nft h h2 h3)

/-- Witness for C7: a caller (9) other than the owner (5) of the sample
token is rejected with `DeniedAccess`, the state unchanged. -/
theorem vnft_start_rejections_witness :
    start_metadata_update 9 7 2 3 1 sSample = (.error .DeniedAccess, sSample, []) :=
  vnft_start_rejections.2.2.2.1 sSample 9 7 2 3 1
    { id := 1, owner := 5, metadata := mdSample }
    (by decide) (by decide) (by decide) (by decide)

/-- C8: a transfer of an existing token by its current owner succeeds
(also in the degenerate case `to = owner`, which is not rejected); after
it the stored owner is `to`, the id is present in `to`'s owner-index
entry, and — whenever the former owner differs from `to` — the id is
absent from the former owner's entry. -/
theorem vnft_transfer_postconditions (s : VnftState) (c tid toA : Nat) (nft : NFT)
    (hget : s.nfts tid = some nft) (hown : nft.owner = c) :
    (transfer c tid toA s).1 = .ok (.Transferred tid c toA) ∧
    tokenOwner (transfer c tid toA s).2 tid = some toA ∧
    (c ≠ toA → tid ∉ ownedList (transfer c tid toA s).2 c) ∧
    tid ∈ ownedList (transfer c tid toA s).2 toA := by
  subst hown
  have hcond : ¬ (nft.owner ≠ nft.owner) := not_not_intro rfl
  refine ⟨?_, ?_, ?_, ?_⟩
  · simp only [transfer, hget]
    rw [if_neg hcond]
  · simp only [tokenOwner, transfer, hget]
    rw [if_neg hcond]
    simp [mapSet_self]
  · intro hne
    simp only [ownedList, transfer, hget]
    rw [if_neg hcond]
    dsimp only
    rw [mapSet_ne _ _ _ hne]
    cases hcase : s.owner_nfts nft.owner with
    | none => simp [hcase]
    | some owned => simp [mapSet_self, List.mem_filter]
  · simp only [ownedList, transfer, hget]
    rw [if_neg hcond]
    dsimp only
    rw [mapSet_self]
    simp

/-- Witness for C8: transferring the sample token from owner 5 to 8
succeeds and records 8 as the owner. -/
theorem vnft_transfer_postconditions_witness :
    tokenOwner (transfer 5 1 8 sSample).2 1 = some 8 :=
  (vnft_transfer_postconditions sSample 5 1 8 { id := 1, owner := 5, metadata := mdSample }
    (by decide) (by decide)).2.1

/-- C9: for both `start_metadata_updates` and `updates_metadata`, a
successful advance on a token with a non-empty media list sets the index
to `saturating_add(index, 1) % len(media)` (`advancedIdx`), which is
strictly below `len(media)` for every prior index value — including
values at or above `len(media)` and `u64::MAX` — so a single advance
re-normalizes an out-of-range index. -/
theorem vnft_advance_normalizes_index :
    (∀ (s : VnftState) (pr g tid src n p : Nat) (nft : NFT),
      s.nfts tid = some nft → nft.owner = src → nft.metadata.media ≠ [] →
      (start_metadata_updates pr g tid src n p s).1 = .ok () ∧
      tokenIdx (start_metadata_updates pr g tid src n p s).2.1 tid =
        some (advancedIdx nft) ∧
      advancedIdx nft < nft.metadata.media.length) ∧
    (∀ (s : VnftState) (pr g tid ow n p : Nat) (nft : NFT),
      s.nfts tid = some nft → nft.owner = ow → nft.metadata.media ≠ [] →
      (updates_metadata pr g tid ow p n s).1 = .ok (advancedIdx nft) ∧
      tokenIdx (updates_metadata pr g tid ow p n s).2.1 tid =
        some (advancedIdx nft) ∧
      advancedIdx nft < nft.metadata.media.length) := by
  constructor
  · intro s pr g tid src n p nft hget hown hne
    have hS := smu_success pr g tid src n p s nft hget hown hne
    rw [hS]
    refine ⟨rfl, ?_, Nat.mod_lt _ (List.length_pos.mpr hne)⟩
    simp [tokenIdx, mapSet_self, advanceToken]
  · intro s pr g tid ow n p nft hget hown hne
    have hS := umu_success pr g tid ow p n s nft hget hown hne
    rw [hS]
    refine ⟨rfl, ?_, Nat.mod_lt _ (List.length_pos.mpr hne)⟩
    simp [tokenIdx, mapSet_self, advanceToken]

/-- Witness for C9: on the token whose index is `u64::MAX` (media length
2), one advance yields an in-range index. -/
theorem vnft_advance_normalizes_index_witness :
    advancedIdx { id := 1, owner := 1, metadata := mdMaxIdx } <
      ({ id := 1, owner := 1, metadata := mdMaxIdx } : NFT).metadata.media.length :=
  (vnft_advance_normalizes_index.1 sMaxIdx 7 0 1 1 1 1
    { id := 1, owner := 1, metadata := mdMaxIdx }
    (by decide) (by decide) (by decide)).2.2

/-- C10: `mint` performs no metadata validation — an authorized caller
can mint a token with any metadata whatsoever, including an empty media
list or an out-of-range index, and the metadata is stored verbatim; for
a token with an empty media list, `start_metadata_update` invoked by the
owner with valid counts fails with `TokenDoesNotExist`, and for every
caller and every argument it fails without mutating the state, so such a
token's metadata can never be updated through the scheduled-update
mechanism. -/
theorem vnft_mint_no_validation :
    (∀ (s : VnftState) (c toA : Nat) (md : TokenMetadata),
      (c = s.admin ∨ s.main_contract = some c) → s.next_id + 1 < U64MOD →
      (mint c toA md s).1 = .ok (.Minted s.next_id toA) ∧
      (mint c toA md s).2.nfts s.next_id =
        some { id := s.next_id, owner := toA, metadata := md }) ∧
    (∀ (s : VnftState) (c pr n p tid : Nat) (nft : NFT), n ≠ 0 → p ≠ 0 →
      s.nfts tid = some nft → nft.metadata.media = [] → nft.owner = c →
      start_metadata_update c pr n p tid s = (.error .TokenDoesNotExist, s, [])) ∧
    (∀ (s : VnftState) (c pr n p tid : Nat) (nft : NFT),
      s.nfts tid = some nft → nft.metadata.media = [] →
      (start_metadata_update c pr n p tid s).2.1 = s ∧
      ∀ ev, (start_metadata_update c pr n p tid s).1 ≠ .ok ev) := by
  refine ⟨?_, ?_, ?_⟩
  · intro s c toA md hauth hov
    unfold mint
    rw [if_neg (fun hc => hauth.elim (fun h => hc.1 h) (fun h => hc.2 h)),
      if_neg (by omega)]
    exact ⟨rfl, mapSet_self _ _ _⟩
  · intro s c pr n p tid nft hn hp hget hmedia hown
    exact smuW_err c pr n p tid s s _ [] hn hp
      (smu_empty pr s.gas_for_one_time_updating tid c n p s nft hget hown hmedia)
  · intro s c pr n p tid nft hget hmedia
    by_cases hn : n = 0
    · subst hn
      rw [smuW_zero_count]
      exact ⟨rfl, fun ev h => Except.noConfusion h⟩
    · by_cases hp : p = 0
      · subst hp
        rw [smuW_zero_period c pr n tid s hn]
        exact ⟨rfl, fun ev h => Except.noConfusion h⟩
      · by_cases how : nft.owner = c
        · rw [smuW_err c pr n p tid s s _ [] hn hp
            (smu_empty pr s.gas_for_one_time_updating tid c n p s nft hget how hmedia)]
          exact ⟨rfl, fun ev h => Except.noConfusion h⟩
        · rw [smuW_err c pr n p tid s s _ [] hn hp
            (smu_denied pr s.gas_for_one_time_updating tid c n p s nft hget how)]
          exact ⟨rfl, fun ev h => Except.noConfusion h⟩

/-- Witness for C10: the empty-media token minted into `sEmptyMedia`
cannot have its metadata updated: the owner's start call fails with
`TokenDoesNotExist` and the state is unchanged. -/
theorem vnft_mint_no_validation_witness :
    start_metadata_update 5 9 1 1 1 sEmptyMedia =
      (.error .TokenDoesNotExist, sEmptyMedia, []) :=
  vnft_mint_no_validation.2.1 sEmptyMedia 5 9 1 1 1
    { id := 1, owner := 5, metadata := mdEmptyMedia }
    (by decide) (by decide) (by decide) (by decide) (by decide)
